import Mathlib

/-
Verification of the signal-computation and allocation core of the
dca-dashboard repository (src/streamlit_app.py and
src/dca_dashboard_streamlit.py).

Embedding conventions:
- Python floats are modelled as rationals (ℚ).  Exact rational identities
  subsume the float-tolerance phrasing of the spec.
- A Python dict is modelled as an association list in iteration
  (insertion) order.  Dict keys in the source are ETF name strings
  compared with the Python string order; the embedding is polymorphic
  over a linearly ordered key type.
- A pandas series is modelled as a list of optional rationals
  (missing observations are explicit absence, dropped by dropna) or,
  once cleaned, as a list of rationals.
- A Python expression that raises an exception is modelled as the Option
  value none.  In particular Python min() raises ValueError on an empty
  sequence, so the min of a value list is an Option.
- Division in ℚ is total with x / 0 = 0; every place where the source can
  divide by zero is tracked explicitly in the theorems concerned.
-/

namespace DCA

/-! ### Time series utility: pct_change (src/dca_dashboard_streamlit.py lines 67-71)

    if len(series) < 2: return 0.0
    return float((series.iloc[-1] / series.iloc[-2] - 1) * 100)
-/

def pct_change (series : List ℚ) : ℚ :=
  if series.length < 2 then 0
  else (series.getD (series.length - 1) 0 / series.getD (series.length - 2) 0 - 1) * 100

/-! ### Trend scorer (spec 4.2) -/

/-- Modelled from the spec: the weight component (index 0) of
`scoring.score_and_style`.  The `scoring` module is imported by
src/streamlit_app.py but its file is not part of the source tree, so the
weight is taken from the spec 4.2 classification: deviation < 0 gives
+1.0 (favorable); 0 <= deviation < thresholdPercent/100 gives +0.5
(neutral-favorable); otherwise -1.0 (unfavorable). -/
def score_weight (deviation : ℚ) (threshold_pct : ℚ) : ℚ :=
  if deviation < 0 then 1
  else if deviation < threshold_pct / 100 then 0.5
  else -1

/-! ### Signal aggregator (src/streamlit_app.py lines 35-45)

    for name, series in prices.items():
        s = series.dropna()
        if len(s) < 1:
            raw_scores[name] = 0.0
        else:
            last = s.iloc[-1]
            raw_scores[name] = sum(
                score_and_style((last - s.tail(w).mean()) / s.tail(w).mean(), threshold_pct)[0]
                for w in TIMEFRAMES.values() if len(s) >= w
            )
-/

/-- s.tail(w): the last w observations (all of them when w exceeds the length). -/
def window_tail (s : List ℚ) (w : ℕ) : List ℚ := s.drop (s.length - w)

/-- s.tail(w).mean(): pandas mean is sum divided by count. -/
def windowMean (s : List ℚ) (w : ℕ) : ℚ := (window_tail s w).sum / (window_tail s w).length

/-- s.iloc[-1], the last observation (defaulting to 0 on an empty series;
the source only reads it behind the len(s) >= 1 guard). -/
def lastVal (s : List ℚ) : ℚ := s.getD (s.length - 1) 0

/-- (last - s.tail(w).mean()) / s.tail(w).mean() -/
def deviation (s : List ℚ) (w : ℕ) : ℚ := (lastVal s - windowMean s w) / windowMean s w

/-- The windows the generator actually evaluates: the filter
`if len(s) >= w` of the comprehension. -/
def evalWindows (s : List ℚ) (windows : List ℕ) : List ℕ :=
  windows.filter (fun w => w ≤ s.length)

/-- Composite score of one asset from its cleaned series: 0.0 when the
series is empty, otherwise the sum of the trend-scorer weights over the
windows that pass the len(s) >= w filter. -/
def raw_score (s : List ℚ) (windows : List ℕ) (t : ℚ) : ℚ :=
  if s.length < 1 then 0
  else ((evalWindows s windows).map (fun w => score_weight (deviation s w) t)).sum

/-- series.dropna(): keep the present observations. -/
def dropna (series : List (Option ℚ)) : List ℚ := series.filterMap id

/-- The raw_scores dict: one composite score per asset, in input order. -/
def raw_scores {α : Type} (prices : List (α × List (Option ℚ))) (windows : List ℕ)
    (t : ℚ) : List (α × ℚ) :=
  prices.map (fun p => (p.1, raw_score (dropna p.2) windows t))

/-! ### Allocation normalizer (src/streamlit_app.py lines 47-51)

    min_score   = min(raw_scores.values())
    shift       = -min_score if min_score < 0 else 0.0
    adj_scores  = {k: v + shift for k, v in raw_scores.items()}
    total       = sum(adj_scores.values()) or 1.0
    allocations = {k: v / total * 50 for k, v in adj_scores.items()}

The ceiling 50 is hard-coded in the source; the embedding abstracts it as
a parameter C instantiated at 50.
-/

/-- min(raw_scores.values()): Python min starts from the first value and
folds with binary min; it raises ValueError on an empty sequence,
modelled as none. -/
def min_score? {α : Type} (scores : List (α × ℚ)) : Option ℚ :=
  match scores.map Prod.snd with
  | [] => none
  | v :: vs => some (vs.foldl min v)

/-- shift = -min_score if min_score < 0 else 0.0 (0 on an empty dict,
where the source has already raised). -/
def shift_val {α : Type} (scores : List (α × ℚ)) : ℚ :=
  match min_score? scores with
  | none => 0
  | some m => if m < 0 then -m else 0

/-- adj_scores = {k: v + shift for k, v in raw_scores.items()} -/
def adj_scores {α : Type} (scores : List (α × ℚ)) : List (α × ℚ) :=
  scores.map (fun p => (p.1, p.2 + shift_val scores))

/-- sum(adj_scores.values()), before the `or 1.0` truthiness fallback. -/
def adjusted_total {α : Type} (scores : List (α × ℚ)) : ℚ :=
  ((adj_scores scores).map Prod.snd).sum

/-- total = sum(adj_scores.values()) or 1.0 : a zero sum is falsy in
Python, so it is replaced by 1.0. -/
def total_val {α : Type} (scores : List (α × ℚ)) : ℚ :=
  if adjusted_total scores = 0 then 1 else adjusted_total scores

/-- allocations = {k: v / total * C for k, v in adj_scores.items()},
none when the very first line min(raw_scores.values()) raises. -/
def allocations? {α : Type} (scores : List (α × ℚ)) (C : ℚ) :
    Option (List (α × ℚ)) :=
  match min_score? scores with
  | none => none
  | some _ => some ((adj_scores scores).map (fun p => (p.1, p.2 / total_val scores * C)))

/-- Modelled from the spec (spec 4.4), for comparison with the source:
shift = max(0, -minScore), adjustedScore(a) = compositeScore(a) + shift,
total = sum of adjusted scores with 0 replaced by 1.0,
allocation(a) = adjustedScore(a) / total * C. -/
def allocationSpec {α : Type} (scores : List (α × ℚ)) (C : ℚ) : List (α × ℚ) :=
  let vals := scores.map Prod.snd
  let minScore := vals.foldr min (vals.headD 0)
  let shift := max 0 (-minScore)
  let total0 := (vals.map (fun v => v + shift)).sum
  let total := if total0 = 0 then 1 else total0
  scores.map (fun p => (p.1, (p.2 + shift) / total * C))

/-! ### Arbitrage alert detector (src/dca_dashboard_streamlit.py lines 200-206)

    for t in sorted(thresholds, reverse=True):
        pairs = [(i, j, abs(deltas[i] - deltas[j]))
                 for i in deltas for j in deltas
                 if i < j and abs(deltas[i] - deltas[j]) > t]
-/

/-- The pair list for one threshold: both loops run over the deltas dict,
keeping the pairs with i < j (the key order) whose absolute delta gap
exceeds t. -/
def pairsFor {α : Type} [LinearOrder α] (deltas : List (α × ℚ)) (t : ℚ) :
    List (α × α × ℚ) :=
  deltas.flatMap (fun a => deltas.filterMap (fun b =>
    if a.1 < b.1 ∧ t < |a.2 - b.2| then some (a.1, b.1, |a.2 - b.2|) else none))

/-- One insertion step of sorting in decreasing order. -/
def insertDesc (x : ℚ) : List ℚ → List ℚ
  | [] => [x]
  | y :: ys => if y < x then x :: y :: ys else y :: insertDesc x ys

/-- sorted(thresholds, reverse=True). -/
def sortDesc : List ℚ → List ℚ
  | [] => []
  | x :: xs => insertDesc x (sortDesc xs)

/-- All alerts of one evaluation: thresholds processed largest first, and
for each threshold its qualifying pairs tagged with that threshold. -/
def alertsFor {α : Type} [LinearOrder α] (deltas : List (α × ℚ))
    (thresholds : List ℚ) : List (α × α × ℚ × ℚ) :=
  (sortDesc thresholds).flatMap (fun t =>
    (pairsFor deltas t).map (fun p => (p.1, p.2.1, p.2.2, t)))

/-- A pair of assets is alerted at threshold t when the detector emits a
tuple covering it in either orientation. -/
def alertedPair {α : Type} [LinearOrder α] (deltas : List (α × ℚ)) (t : ℚ)
    (A B : α) : Prop :=
  ∃ d, (A, B, d) ∈ pairsFor deltas t ∨ (B, A, d) ∈ pairsFor deltas t

/-! ### Green counts (src/dca_dashboard_streamlit.py lines 73-83)

    for window in timeframes.values():
        if len(series) >= window and series.iloc[-1] < series.iloc[-window:].mean():
            count += 1
-/

/-- Number of windows with enough history whose trailing mean exceeds the
last observation. -/
def green_count (s : List ℚ) (windows : List ℕ) : ℕ :=
  (windows.filter (fun w => w ≤ s.length ∧ lastVal s < windowMean s w)).length

/-! ### Helper lemmas about the Python fold of binary min -/

theorem foldl_min_le_init (l : List ℚ) (a : ℚ) : l.foldl min a ≤ a := by
  induction l generalizing a with
  | nil => exact le_refl a
  | cons x xs ih => exact le_trans (ih (min a x)) (min_le_left a x)

theorem foldl_min_le_mem (l : List ℚ) (a b : ℚ) (hb : b ∈ l) : l.foldl min a ≤ b := by
  induction l generalizing a with
  | nil => cases hb
  | cons x xs ih =>
    rcases List.mem_cons.mp hb with h | h
    · subst h
      exact le_trans (foldl_min_le_init xs (min a b)) (min_le_right a b)
    · exact ih (min a x) h

theorem foldl_min_is_mem (l : List ℚ) (a : ℚ) :
    l.foldl min a = a ∨ l.foldl min a ∈ l := by
  induction l generalizing a with
  | nil => exact Or.inl rfl
  | cons x xs ih =>
    rcases ih (min a x) with h | h
    · rcases min_choice a x with hm | hm
      · left
        rw [List.foldl_cons, h, hm]
      · right
        rw [List.foldl_cons, h, hm]
        exact List.mem_cons_self x xs
    · right
      exact List.mem_cons_of_mem x h

theorem foldr_min_le_init (l : List ℚ) (a : ℚ) : l.foldr min a ≤ a := by
  induction l with
  | nil => exact le_refl a
  | cons x xs ih => exact le_trans (min_le_right x _) ih

/-- min(raw_scores.values()) returns exactly the least value: it is some m
iff m is a value and a lower bound of all values. -/
theorem min_score?_eq_some_iff {α : Type} (scores : List (α × ℚ)) (m : ℚ) :
    min_score? scores = some m ↔
      m ∈ scores.map Prod.snd ∧ ∀ v ∈ scores.map Prod.snd, m ≤ v := by
  unfold min_score?
  cases hv : scores.map Prod.snd with
  | nil => simp
  | cons v vs =>
    simp only [Option.some.injEq]
    constructor
    · rintro rfl
      refine ⟨?_, ?_⟩
      · rcases foldl_min_is_mem vs v with h | h
        · rw [h]
          exact List.mem_cons_self _ _
        · exact List.mem_cons_of_mem _ h
      · intro w hw
        rcases List.mem_cons.mp hw with h | h
        · subst h
          exact foldl_min_le_init vs w
        · exact foldl_min_le_mem vs v w h
    · rintro ⟨hmem, hlb⟩
      have h1 : vs.foldl min v ≤ m := by
        rcases List.mem_cons.mp hmem with h | h
        · subst h
          exact foldl_min_le_init vs m
        · exact foldl_min_le_mem vs v m h
      have h2 : m ≤ vs.foldl min v := by
        rcases foldl_min_is_mem vs v with h | h
        · rw [h]
          exact hlb v (List.mem_cons_self _ _)
        · exact hlb _ (List.mem_cons_of_mem _ h)
      exact le_antisymm h1 h2

/-- On a non-empty dict, the Python fold of min agrees with the spec
reading "min of the composite scores" (a foldr over all values). -/
theorem min_score?_eq_spec {α : Type} (scores : List (α × ℚ)) (h : scores ≠ []) :
    min_score? scores
      = some ((scores.map Prod.snd).foldr min ((scores.map Prod.snd).headD 0)) := by
  cases scores with
  | nil => exact absurd rfl h
  | cons p ps =>
    simp only [min_score?, List.map_cons, List.headD_cons, List.foldr_cons]
    rw [List.foldl_eq_foldr]
    exact congrArg some (min_eq_right (foldr_min_le_init _ _)).symm

/-! ### Claim theorems -/

/-- C6: for every series of length < 2, pct_change returns exactly 0.0
(the explicit fallback, not an error); for every series of length >= 2 it
returns (last / secondToLast - 1) * 100. -/
theorem pct_change_short_fallback_and_formula (s : List ℚ) :
    (s.length < 2 → pct_change s = 0) ∧
    (2 ≤ s.length →
      pct_change s = (s.getLast?.getD 0 / s.dropLast.getLast?.getD 0 - 1) * 100) := by
  constructor
  · intro h
    simp [pct_change, h]
  · intro h
    have hlt : ¬ s.length < 2 := by omega
    have hlast : s.getD (s.length - 1) 0 = s.getLast?.getD 0 := by
      rw [List.getD_eq_getElem?_getD, List.getLast?_eq_getElem?]
    have hstl : s.dropLast.getLast?.getD 0 = s.getD (s.length - 2) 0 := by
      rw [List.getLast?_eq_getElem? s.dropLast, List.length_dropLast,
        List.dropLast_eq_take s]
      rw [show s.length - 1 - 1 = s.length - 2 from by omega]
      rw [show (s.take (s.length - 1))[s.length - 2]? = s[s.length - 2]? from by
        simp [List.getElem?_take, (show s.length - 2 < s.length - 1 from by omega)]]
      rw [List.getD_eq_getElem?_getD]
    unfold pct_change
    rw [if_neg hlt, hlast, ← hstl]

theorem pct_change_short_fallback_and_formula_witness :
    pct_change [(3 : ℚ)] = 0 ∧
    pct_change [(2 : ℚ), 3]
      = ([(2 : ℚ), 3].getLast?.getD 0 / [(2 : ℚ), 3].dropLast.getLast?.getD 0 - 1) * 100 :=
  ⟨(pct_change_short_fallback_and_formula [3]).1 (by decide),
   (pct_change_short_fallback_and_formula [2, 3]).2 (by decide)⟩

/-- C10: pct_change divides by the second-to-last element without a zero
guard: for every series of length >= 2 whose second-to-last value is 0,
the 0.0 fallback is NOT taken and the division (last / 0 - 1) * 100 is
computed.  This ℚ embedding makes division total with x / 0 = 0, so the
reached branch returns -100, distinct from the 0.0 fallback; in Python
the same branch divides floats by zero (yielding inf/nan, not 0.0). -/
theorem pct_change_zero_divisor_division_reached (s : List ℚ)
    (h2 : 2 ≤ s.length) (hz : s.getD (s.length - 2) 0 = 0) :
    pct_change s = (s.getD (s.length - 1) 0 / 0 - 1) * 100 ∧ pct_change s = -100 := by
  have hlt : ¬ s.length < 2 := by omega
  constructor
  · unfold pct_change
    rw [if_neg hlt, hz]
  · unfold pct_change
    rw [if_neg hlt, hz, div_zero]
    norm_num

theorem pct_change_zero_divisor_division_reached_witness :
    pct_change [(0 : ℚ), 5]
        = ([(0 : ℚ), 5].getD ([(0 : ℚ), 5].length - 1) 0 / 0 - 1) * 100 ∧
      pct_change [(0 : ℚ), 5] = -100 :=
  pct_change_zero_divisor_division_reached [0, 5] (by decide) (by decide)

/-- C7: the trend scorer weight is +1.0 when deviation < 0, +0.5 when
0 <= deviation < thresholdPercent/100, and -1.0 when deviation >=
thresholdPercent/100 (the threshold percent is non-negative, as the
sidebar slider supplies 1..20); the weight is never outside
{+1.0, +0.5, -1.0}. -/
theorem score_weight_classification (dev t : ℚ) (ht : 0 ≤ t) :
    (dev < 0 → score_weight dev t = 1) ∧
    (0 ≤ dev → dev < t / 100 → score_weight dev t = 0.5) ∧
    (t / 100 ≤ dev → score_weight dev t = -1) ∧
    (score_weight dev t = 1 ∨ score_weight dev t = 0.5 ∨ score_weight dev t = -1) := by
  refine ⟨?_, ?_, ?_, ?_⟩
  · intro h
    simp [score_weight, h]
  · intro h0 hlt
    rw [score_weight, if_neg (not_lt.mpr h0), if_pos hlt]
  · intro hge
    have hq : (0 : ℚ) ≤ t / 100 := by positivity
    have h0 : (0 : ℚ) ≤ dev := le_trans hq hge
    rw [score_weight, if_neg (not_lt.mpr h0), if_neg (not_lt.mpr hge)]
  · unfold score_weight
    split
    · exact Or.inl rfl
    · split
      · exact Or.inr (Or.inl rfl)
      · exact Or.inr (Or.inr rfl)

theorem score_weight_classification_witness :
    ((-1 : ℚ) < 0 → score_weight (-1) 10 = 1) ∧
    ((0 : ℚ) ≤ -1 → (-1 : ℚ) < 10 / 100 → score_weight (-1) 10 = 0.5) ∧
    ((10 : ℚ) / 100 ≤ -1 → score_weight (-1) 10 = -1) ∧
    (score_weight (-1) 10 = 1 ∨ score_weight (-1) 10 = 0.5 ∨ score_weight (-1) 10 = -1) :=
  score_weight_classification (-1) 10 (by decide)

/-- C8: the composite score is the sum of trend-scorer weights over
exactly the windows whose size is at most the (cleaned) series length;
windows with insufficient history contribute nothing, and an asset with
zero evaluable windows has composite score 0.0 (window sizes are
positive, as in the TIMEFRAMES configuration). -/
theorem raw_score_sums_evaluable_windows (s : List ℚ) (windows : List ℕ) (t : ℚ)
    (hw : ∀ w ∈ windows, 1 ≤ w) :
    raw_score s windows t
      = ((windows.filter (fun w => w ≤ s.length)).map
          (fun w => score_weight (deviation s w) t)).sum ∧
    (evalWindows s windows = [] → raw_score s windows t = 0) := by
  constructor
  · unfold raw_score evalWindows
    split
    · next hlen =>
      have hfil : windows.filter (fun w => w ≤ s.length) = [] := by
        simp only [List.filter_eq_nil_iff]
        intro w hmem
        have h1 := hw w hmem
        simp only [decide_eq_true_eq]
        omega
      rw [hfil]
      simp
    · rfl
  · intro he
    unfold raw_score
    split
    · rfl
    · rw [he]
      simp

theorem raw_score_sums_evaluable_windows_witness :
    raw_score [] [5, 21, 63, 252, 1260] 10
      = ((([5, 21, 63, 252, 1260] : List ℕ).filter
            (fun w => w ≤ ([] : List ℚ).length)).map
          (fun w => score_weight (deviation [] w) 10)).sum ∧
    (evalWindows [] [5, 21, 63, 252, 1260] = [] →
      raw_score [] [5, 21, 63, 252, 1260] 10 = 0) :=
  raw_score_sums_evaluable_windows [] [5, 21, 63, 252, 1260] 10 (by decide)

/-- C4 fails on the source: for the series [1, -1] the 2-observation
window mean is 0, yet the window passes the only guard of the
comprehension (len(s) >= w) and is evaluated, so the deviation division
by the zero mean is performed and the window contributes a weight
instead of being skipped (skipping every window would leave the
composite score at 0.0).  In Python the division of floats by the zero
mean yields -inf, which score_and_style maps to weight +1.0; in this
total embedding x / 0 = 0 and the contributed weight is +0.5 - under
both semantics the zero-mean window contributes. -/
theorem zero_mean_window_is_not_skipped :
    windowMean [1, -1] 2 = 0 ∧
    evalWindows [1, -1] [2] = [2] ∧
    raw_score [1, -1] [2] 10 ≠ 0 := by
  refine ⟨?_, ?_, ?_⟩
  · norm_num [windowMean, window_tail]
  · rfl
  · norm_num [raw_score, evalWindows, deviation, windowMean, window_tail, lastVal,
      score_weight]

/-- C3 fails on the source at a single point: on an empty set of assets
every other core operation returns its documented fallback, but the
allocation normalizer starts with min(raw_scores.values()) and Python
min raises ValueError on an empty sequence (modelled as none), while the
spec says nothing in the core may raise under any combination of empty,
short or degenerate inputs. -/
theorem empty_asset_set_raises_in_normalizer :
    pct_change [] = 0 ∧
    raw_score [] [5, 21, 63, 252, 1260] 10 = 0 ∧
    green_count [] [5, 21, 63, 252, 1260] = 0 ∧
    raw_scores ([] : List (ℕ × List (Option ℚ))) [5, 21, 63, 252, 1260] 10 = [] ∧
    pairsFor ([] : List (ℕ × ℚ)) 5 = [] ∧
    alertsFor ([] : List (ℕ × ℚ)) [5, 10, 15] = [] ∧
    allocations? ([] : List (ℕ × ℚ)) 50 = none := by
  refine ⟨rfl, rfl, ?_, rfl, rfl, ?_, rfl⟩
  · norm_num [green_count, lastVal, windowMean, window_tail]
  · norm_num [alertsFor, sortDesc, insertDesc, pairsFor]

/-- C1: on every non-empty mapping of asset to composite score, the
source normalizer computes exactly the shift-then-normalize policy of
spec 4.4 (shift = max(0, -minScore), adjusted = score + shift, total =
sum of adjusted with 0 replaced by 1.0, allocation = adjusted / total *
C); in particular composite scores 2.0 and -1.0 with ceiling 50 give
allocations [50.0, 0.0]. -/
theorem allocations_follow_shift_then_normalize {α : Type} (scores : List (α × ℚ))
    (C : ℚ) (h : scores ≠ []) :
    allocations? scores C = some (allocationSpec scores C) ∧
    allocations? [((0 : ℕ), (2 : ℚ)), (1, -1)] 50 = some [(0, 50), (1, 0)] := by
  constructor
  · have hmin := min_score?_eq_spec scores h
    have hshift : shift_val scores
        = max 0 (-((scores.map Prod.snd).foldr min ((scores.map Prod.snd).headD 0))) := by
      unfold shift_val
      rw [hmin]
      show (if ((scores.map Prod.snd).foldr min ((scores.map Prod.snd).headD 0)) < 0 then
          -((scores.map Prod.snd).foldr min ((scores.map Prod.snd).headD 0)) else 0)
        = max 0 (-((scores.map Prod.snd).foldr min ((scores.map Prod.snd).headD 0)))
      rcases lt_or_le ((scores.map Prod.snd).foldr min ((scores.map Prod.snd).headD 0)) 0
        with h1 | h1
      · rw [if_pos h1, max_eq_right (by linarith)]
      · rw [if_neg (not_lt.mpr h1), max_eq_left (by linarith)]
    unfold allocations? allocationSpec
    rw [hmin]
    simp only [Option.some.injEq, adj_scores, total_val, adjusted_total, List.map_map]
    rw [hshift]
    rfl
  · norm_num [allocations?, min_score?, shift_val, adj_scores, total_val, adjusted_total]

theorem allocations_follow_shift_then_normalize_witness :
    allocations? [((0 : ℕ), (2 : ℚ)), (1, -1)] 50
        = some (allocationSpec [((0 : ℕ), (2 : ℚ)), (1, -1)] 50) ∧
    allocations? [((0 : ℕ), (2 : ℚ)), (1, -1)] 50 = some [(0, 50), (1, 0)] :=
  allocations_follow_shift_then_normalize [((0 : ℕ), (2 : ℚ)), (1, -1)] 50
    (List.cons_ne_nil _ _)

/-- C2: every allocation the normalizer produces is non-negative (the
ceiling, fixed at 50 in the source, is non-negative), and whenever the
adjusted total is non-zero the allocations sum exactly to the ceiling C
(exact in ℚ, subsuming the float tolerance). -/
theorem allocations_nonneg_and_sum_to_ceiling {α : Type} (scores : List (α × ℚ))
    (C : ℚ) (hC : 0 ≤ C) (out : List (α × ℚ))
    (hout : allocations? scores C = some out) :
    (∀ p ∈ out, 0 ≤ p.2) ∧
    (adjusted_total scores ≠ 0 → (out.map Prod.snd).sum = C) := by
  unfold allocations? at hout
  cases hmin : min_score? scores with
  | none =>
    rw [hmin] at hout
    cases hout
  | some m =>
    rw [hmin] at hout
    simp only [Option.some.injEq] at hout
    subst hout
    obtain ⟨hm_mem, hm_lb⟩ := (min_score?_eq_some_iff scores m).mp hmin
    have hshift_def : shift_val scores = if m < 0 then -m else 0 := by
      unfold shift_val
      rw [hmin]
    have hadj_nonneg : ∀ q ∈ scores, 0 ≤ q.2 + shift_val scores := by
      intro q hq
      have hmv : m ≤ q.2 := hm_lb q.2 (List.mem_map_of_mem Prod.snd hq)
      rw [hshift_def]
      rcases lt_or_le m 0 with h1 | h1
      · rw [if_pos h1]
        linarith
      · rw [if_neg (not_lt.mpr h1)]
        linarith
    have htot_nonneg : 0 ≤ adjusted_total scores := by
      unfold adjusted_total adj_scores
      apply List.sum_nonneg
      intro x hx
      rw [List.map_map] at hx
      obtain ⟨q, hq, rfl⟩ := List.mem_map.mp hx
      exact hadj_nonneg q hq
    have hT_pos : 0 < total_val scores := by
      unfold total_val
      split
      · norm_num
      · next hne => exact lt_of_le_of_ne htot_nonneg (Ne.symm hne)
    constructor
    · intro p hp
      obtain ⟨q, hq, rfl⟩ := List.mem_map.mp hp
      obtain ⟨r, hr, rfl⟩ := List.mem_map.mp hq
      exact mul_nonneg (div_nonneg (hadj_nonneg r hr) hT_pos.le) hC
    · intro hne
      have hT : total_val scores = adjusted_total scores := by
        unfold total_val
        rw [if_neg hne]
      rw [List.map_map]
      have hfun : (Prod.snd ∘ fun p : α × ℚ => (p.1, p.2 / total_val scores * C))
          = fun p : α × ℚ => Prod.snd p * ((total_val scores)⁻¹ * C) := by
        funext p
        simp [div_eq_mul_inv, mul_assoc]
      rw [hfun, List.sum_map_mul_right]
      have hat : ((adj_scores scores).map Prod.snd).sum = adjusted_total scores := rfl
      rw [hat, hT, ← mul_assoc, mul_inv_cancel₀ hne, one_mul]

theorem allocations_nonneg_and_sum_to_ceiling_witness :
    (∀ p ∈ [((0 : ℕ),
        ((1 : ℚ) + shift_val [((0 : ℕ), (1 : ℚ))]) / total_val [((0 : ℕ), (1 : ℚ))] * 50)],
      0 ≤ p.2) ∧
    (adjusted_total [((0 : ℕ), (1 : ℚ))] ≠ 0 →
      (([((0 : ℕ),
          ((1 : ℚ) + shift_val [((0 : ℕ), (1 : ℚ))]) / total_val [((0 : ℕ), (1 : ℚ))] * 50)]).map
            Prod.snd).sum = 50) :=
  allocations_nonneg_and_sum_to_ceiling [((0 : ℕ), (1 : ℚ))] 50 (by decide)
    [((0 : ℕ),
      ((1 : ℚ) + shift_val [((0 : ℕ), (1 : ℚ))]) / total_val [((0 : ℕ), (1 : ℚ))] * 50)] rfl

/-! ### Helper lemmas about the detector -/

theorem mem_insertDesc (x y : ℚ) (l : List ℚ) :
    x ∈ insertDesc y l ↔ x = y ∨ x ∈ l := by
  induction l with
  | nil => simp [insertDesc]
  | cons z zs ih =>
    unfold insertDesc
    split
    · simp [List.mem_cons]
    · simp only [List.mem_cons, ih]
      tauto

theorem mem_sortDesc (x : ℚ) (l : List ℚ) : x ∈ sortDesc l ↔ x ∈ l := by
  induction l with
  | nil => simp [sortDesc]
  | cons y ys ih => simp [sortDesc, mem_insertDesc, ih]

/-- Membership in the pair list of one threshold: exactly the tuples
(a.1, b.1, |a.2 - b.2|) for dict entries a, b with a.1 < b.1 and a gap
above the threshold. -/
theorem mem_pairsFor {α : Type} [LinearOrder α] (deltas : List (α × ℚ)) (t : ℚ)
    (x : α × α × ℚ) :
    x ∈ pairsFor deltas t ↔
      ∃ a ∈ deltas, ∃ b ∈ deltas, a.1 < b.1 ∧ t < |a.2 - b.2| ∧
        x = (a.1, b.1, |a.2 - b.2|) := by
  unfold pairsFor
  simp only [List.mem_flatMap, List.mem_filterMap]
  constructor
  · rintro ⟨a, ha, b, hb, hif⟩
    by_cases hc : a.1 < b.1 ∧ t < |a.2 - b.2|
    · rw [if_pos hc] at hif
      exact ⟨a, ha, b, hb, hc.1, hc.2, (Option.some_inj.mp hif).symm⟩
    · rw [if_neg hc] at hif
      cases hif
  · rintro ⟨a, ha, b, hb, h1, h2, rfl⟩
    exact ⟨a, ha, b, hb, by rw [if_pos ⟨h1, h2⟩]⟩

/-- Membership in the full alert list: a threshold of the configuration
together with one of its qualifying pairs. -/
theorem mem_alertsFor {α : Type} [LinearOrder α] (deltas : List (α × ℚ))
    (ths : List ℚ) (y : α × α × ℚ × ℚ) :
    y ∈ alertsFor deltas ths ↔
      ∃ t ∈ ths, ∃ p ∈ pairsFor deltas t, y = (p.1, p.2.1, p.2.2, t) := by
  unfold alertsFor
  simp only [List.mem_flatMap, List.mem_map, mem_sortDesc]
  constructor
  · rintro ⟨t, ht, p, hp, rfl⟩
    exact ⟨t, ht, p, hp, rfl⟩
  · rintro ⟨t, ht, p, hp, rfl⟩
    exact ⟨t, ht, p, hp, rfl⟩

/-- In a dict, entries are determined by their key. -/
theorem key_injective_on {α : Type} (l : List (α × ℚ))
    (h : (l.map Prod.fst).Nodup) :
    ∀ a ∈ l, ∀ b ∈ l, a.1 = b.1 → a = b := by
  induction l with
  | nil =>
    intro a ha
    cases ha
  | cons x xs ih =>
    simp only [List.map_cons, List.nodup_cons] at h
    obtain ⟨hx, hxs⟩ := h
    intro a ha b hb hab
    rcases List.mem_cons.mp ha with rfl | ha2
    · rcases List.mem_cons.mp hb with rfl | hb2
      · rfl
      · exfalso
        apply hx
        rw [hab]
        exact List.mem_map_of_mem Prod.fst hb2
    · rcases List.mem_cons.mp hb with rfl | hb2
      · exfalso
        apply hx
        rw [← hab]
        exact List.mem_map_of_mem Prod.fst ha2
      · exact ih hxs a ha2 b hb2 hab

theorem filterMap_ite_eq_map_filter {β γ : Type} (p : β → Prop) [DecidablePred p]
    (g : β → γ) (l : List β) :
    (l.filterMap (fun b => if p b then some (g b) else none))
      = (l.filter (fun b => p b)).map g := by
  induction l with
  | nil => rfl
  | cons x xs ih =>
    by_cases h : p x
    · simp [List.filterMap_cons, List.filter_cons, h, ih]
    · simp [List.filterMap_cons, List.filter_cons, h, ih]

/-- With distinct keys, the pair list of one threshold has no duplicate
entries: each qualifying pair is emitted exactly once. -/
theorem pairsFor_nodup {α : Type} [LinearOrder α] (deltas : List (α × ℚ)) (t : ℚ)
    (h : (deltas.map Prod.fst).Nodup) : (pairsFor deltas t).Nodup := by
  have hnd : deltas.Nodup := h.of_map Prod.fst
  have hkey := key_injective_on deltas h
  unfold pairsFor
  rw [List.nodup_flatMap]
  constructor
  · intro a ha
    rw [filterMap_ite_eq_map_filter (fun b => a.1 < b.1 ∧ t < |a.2 - b.2|)
      (fun b => (a.1, b.1, |a.2 - b.2|)) deltas]
    apply List.Nodup.map_on
    · intro b hb b2 hb2 heq
      have hb' : b ∈ deltas := List.mem_of_mem_filter hb
      have hb2' : b2 ∈ deltas := List.mem_of_mem_filter hb2
      have : b.1 = b2.1 := congrArg (fun q : α × α × ℚ => q.2.1) heq
      exact hkey b hb' b2 hb2' this
    · exact hnd.filter _
  · have hpair : deltas.Pairwise (fun a b => a.1 ≠ b.1) := List.pairwise_map.mp h
    apply hpair.imp
    intro a b hab
    show List.Disjoint _ _
    rw [List.disjoint_left]
    intro x hxa hxb
    have hxa1 : x.1 = a.1 := by
      obtain ⟨c, hc, hif⟩ := List.mem_filterMap.mp hxa
      by_cases hcnd : a.1 < c.1 ∧ t < |a.2 - c.2|
      · rw [if_pos hcnd] at hif
        rw [← Option.some_inj.mp hif]
      · rw [if_neg hcnd] at hif
        cases hif
    have hxb1 : x.1 = b.1 := by
      obtain ⟨c, hc, hif⟩ := List.mem_filterMap.mp hxb
      by_cases hcnd : b.1 < c.1 ∧ t < |b.2 - c.2|
      · rw [if_pos hcnd] at hif
        rw [← Option.some_inj.mp hif]
      · rw [if_neg hcnd] at hif
        cases hif
    exact hab (hxa1 ▸ hxb1 ▸ rfl)

/-- C5: the detector emits (A, B, |delta(A) - delta(B)|, t) for exactly
the unordered pairs of distinct assets (canonically ordered by key,
A < B) whose gap exceeds t, for each configured threshold t the pair
exceeds; with distinct keys each qualifying pair is emitted once per
threshold; no self pair is emitted; a pair is alerted for (A, B) iff for
(B, A); and since membership depends only on membership of t in the
threshold collection, processing thresholds largest-to-smallest (as the
source does) does not change the set of alerts. -/
theorem arbitrage_alert_characterization {α : Type} [LinearOrder α]
    (deltas : List (α × ℚ)) (thresholds : List ℚ)
    (hnd : (deltas.map Prod.fst).Nodup) (A B : α) (d t : ℚ) :
    ((A, B, d, t) ∈ alertsFor deltas thresholds ↔
      (t ∈ thresholds ∧ A < B ∧
        ∃ dA, (A, dA) ∈ deltas ∧ ∃ dB, (B, dB) ∈ deltas ∧
          d = |dA - dB| ∧ t < d)) ∧
    ((A, A, d, t) ∉ alertsFor deltas thresholds) ∧
    (pairsFor deltas t).Nodup ∧
    (alertedPair deltas t A B ↔ alertedPair deltas t B A) := by
  refine ⟨?_, ?_, pairsFor_nodup deltas t hnd, ?_⟩
  · rw [mem_alertsFor]
    constructor
    · rintro ⟨t2, ht2, p, hp, heq⟩
      rw [mem_pairsFor] at hp
      obtain ⟨a, ha, b, hb, hlt, hgt, rfl⟩ := hp
      simp only [Prod.mk.injEq] at heq
      obtain ⟨h1, h2, h3, h4⟩ := heq
      subst h1
      subst h2
      subst h3
      subst h4
      exact ⟨ht2, hlt, a.2, ha, b.2, hb, rfl, hgt⟩
    · rintro ⟨ht, hAB, dA, hA, dB, hB, rfl, htd⟩
      refine ⟨t, ht, (A, B, |dA - dB|), ?_, rfl⟩
      rw [mem_pairsFor]
      exact ⟨(A, dA), hA, (B, dB), hB, hAB, htd, rfl⟩
  · intro hmem
    rw [mem_alertsFor] at hmem
    obtain ⟨t2, ht2, p, hp, heq⟩ := hmem
    rw [mem_pairsFor] at hp
    obtain ⟨a, ha, b, hb, hlt, hgt, rfl⟩ := hp
    simp only [Prod.mk.injEq] at heq
    obtain ⟨h1, h2, h3, h4⟩ := heq
    rw [← h1, ← h2] at hlt
    exact lt_irrefl A hlt
  · unfold alertedPair
    constructor
    · rintro ⟨d0, hor⟩
      exact ⟨d0, hor.symm⟩
    · rintro ⟨d0, hor⟩
      exact ⟨d0, hor.symm⟩

theorem arbitrage_alert_characterization_witness :
    (((0 : ℕ), (1 : ℕ), (15 : ℚ), (10 : ℚ)) ∈
        alertsFor [((0 : ℕ), (12 : ℚ)), (1, -3)] [10, 20] ↔
      ((10 : ℚ) ∈ ([10, 20] : List ℚ) ∧ (0 : ℕ) < 1 ∧
        ∃ dA, ((0 : ℕ), dA) ∈ [((0 : ℕ), (12 : ℚ)), (1, -3)] ∧
          ∃ dB, ((1 : ℕ), dB) ∈ [((0 : ℕ), (12 : ℚ)), (1, -3)] ∧
            (15 : ℚ) = |dA - dB| ∧ (10 : ℚ) < 15)) ∧
    (((0 : ℕ), (0 : ℕ), (15 : ℚ), (10 : ℚ)) ∉
        alertsFor [((0 : ℕ), (12 : ℚ)), (1, -3)] [10, 20]) ∧
    (pairsFor [((0 : ℕ), (12 : ℚ)), (1, -3)] 10).Nodup ∧
    (alertedPair [((0 : ℕ), (12 : ℚ)), (1, -3)] 10 0 1 ↔
      alertedPair [((0 : ℕ), (12 : ℚ)), (1, -3)] 10 1 0) :=
  arbitrage_alert_characterization [((0 : ℕ), (12 : ℚ)), (1, -3)] [10, 20]
    (by decide) 0 1 15 10

/-! ### Helper lemmas for order-independence -/

theorem min_score?_eq_none_iff {α : Type} (l : List (α × ℚ)) :
    min_score? l = none ↔ l = [] := by
  cases l with
  | nil => simp [min_score?]
  | cons p ps => simp [min_score?]

theorem min_score?_perm {α : Type} (l1 l2 : List (α × ℚ)) (h : l1.Perm l2) :
    min_score? l1 = min_score? l2 := by
  cases e2 : min_score? l2 with
  | some m =>
    rw [min_score?_eq_some_iff] at e2 ⊢
    obtain ⟨hm, hlb⟩ := e2
    have hperm := h.map Prod.snd
    exact ⟨hperm.mem_iff.mpr hm, fun v hv => hlb v (hperm.mem_iff.mp hv)⟩
  | none =>
    rw [min_score?_eq_none_iff] at e2 ⊢
    rw [e2] at h
    exact h.eq_nil

theorem shift_val_perm {α : Type} (l1 l2 : List (α × ℚ)) (h : l1.Perm l2) :
    shift_val l1 = shift_val l2 := by
  unfold shift_val
  rw [min_score?_perm l1 l2 h]

theorem adjusted_total_perm {α : Type} (l1 l2 : List (α × ℚ)) (h : l1.Perm l2) :
    adjusted_total l1 = adjusted_total l2 := by
  unfold adjusted_total adj_scores
  rw [shift_val_perm l1 l2 h]
  exact ((h.map _).map _).sum_eq

theorem total_val_perm {α : Type} (l1 l2 : List (α × ℚ)) (h : l1.Perm l2) :
    total_val l1 = total_val l2 := by
  unfold total_val
  rw [adjusted_total_perm l1 l2 h]

/-- C9: the aggregator, the normalizer and the detector are deterministic
functions of their inputs (same input, same output), and reordering the
input mappings only permutes the output mappings without changing any
per-asset value, the emitted pair set, or the emitted alert set. -/
theorem core_deterministic_and_order_independent {α : Type} [LinearOrder α]
    (prices prices2 : List (α × List (Option ℚ)))
    (scores scores2 deltas deltas2 : List (α × ℚ))
    (windows : List ℕ) (t C thr : ℚ) (ths : List ℚ)
    (x : α × α × ℚ) (y : α × α × ℚ × ℚ)
    (hp : prices.Perm prices2) (hs : scores.Perm scores2)
    (hd : deltas.Perm deltas2) :
    raw_scores prices windows t = raw_scores prices windows t ∧
    allocations? scores C = allocations? scores C ∧
    alertsFor deltas ths = alertsFor deltas ths ∧
    (raw_scores prices windows t).Perm (raw_scores prices2 windows t) ∧
    Option.Rel List.Perm (allocations? scores C) (allocations? scores2 C) ∧
    (x ∈ pairsFor deltas thr ↔ x ∈ pairsFor deltas2 thr) ∧
    (y ∈ alertsFor deltas ths ↔ y ∈ alertsFor deltas2 ths) := by
  refine ⟨rfl, rfl, rfl, hp.map _, ?_, ?_, ?_⟩
  · have hmin := min_score?_perm scores scores2 hs
    have hsh := shift_val_perm scores scores2 hs
    have htv := total_val_perm scores scores2 hs
    unfold allocations?
    rw [← hmin]
    cases e : min_score? scores with
    | none => exact Option.Rel.none
    | some m =>
      apply Option.Rel.some
      unfold adj_scores
      rw [← hsh, ← htv]
      exact (hs.map _).map _
  · rw [mem_pairsFor, mem_pairsFor]
    simp only [hd.mem_iff]
  · rw [mem_alertsFor, mem_alertsFor]
    constructor
    · rintro ⟨t2, ht2, p, hp2, rfl⟩
      rw [mem_pairsFor] at hp2
      obtain ⟨a, ha, b, hb, h1, h2, rfl⟩ := hp2
      refine ⟨t2, ht2, _, ?_, rfl⟩
      rw [mem_pairsFor]
      exact ⟨a, hd.mem_iff.mp ha, b, hd.mem_iff.mp hb, h1, h2, rfl⟩
    · rintro ⟨t2, ht2, p, hp2, rfl⟩
      rw [mem_pairsFor] at hp2
      obtain ⟨a, ha, b, hb, h1, h2, rfl⟩ := hp2
      refine ⟨t2, ht2, _, ?_, rfl⟩
      rw [mem_pairsFor]
      exact ⟨a, hd.mem_iff.mpr ha, b, hd.mem_iff.mpr hb, h1, h2, rfl⟩

theorem core_deterministic_and_order_independent_witness :
    raw_scores [((0 : ℕ), [some (1 : ℚ)]), (1, [])] [5] 10
        = raw_scores [((0 : ℕ), [some (1 : ℚ)]), (1, [])] [5] 10 ∧
    allocations? [((0 : ℕ), (2 : ℚ)), (1, -1)] 50
        = allocations? [((0 : ℕ), (2 : ℚ)), (1, -1)] 50 ∧
    alertsFor [((0 : ℕ), (12 : ℚ)), (1, -3)] [5, 10]
        = alertsFor [((0 : ℕ), (12 : ℚ)), (1, -3)] [5, 10] ∧
    (raw_scores [((0 : ℕ), [some (1 : ℚ)]), (1, [])] [5] 10).Perm
      (raw_scores [((1 : ℕ), ([] : List (Option ℚ))), (0, [some (1 : ℚ)])] [5] 10) ∧
    Option.Rel List.Perm (allocations? [((0 : ℕ), (2 : ℚ)), (1, -1)] 50)
      (allocations? [((1 : ℕ), (-1 : ℚ)), (0, 2)] 50) ∧
    (((0 : ℕ), (1 : ℕ), (15 : ℚ)) ∈ pairsFor [((0 : ℕ), (12 : ℚ)), (1, -3)] 10 ↔
      ((0 : ℕ), (1 : ℕ), (15 : ℚ)) ∈ pairsFor [((1 : ℕ), (-3 : ℚ)), (0, 12)] 10) ∧
    (((0 : ℕ), (1 : ℕ), (15 : ℚ), (10 : ℚ)) ∈
        alertsFor [((0 : ℕ), (12 : ℚ)), (1, -3)] [5, 10] ↔
      ((0 : ℕ), (1 : ℕ), (15 : ℚ), (10 : ℚ)) ∈
        alertsFor [((1 : ℕ), (-3 : ℚ)), (0, 12)] [5, 10]) :=
  core_deterministic_and_order_independent
    [((0 : ℕ), [some (1 : ℚ)]), (1, [])] [((1 : ℕ), ([] : List (Option ℚ))), (0, [some (1 : ℚ)])]
    [((0 : ℕ), (2 : ℚ)), (1, -1)] [((1 : ℕ), (-1 : ℚ)), (0, 2)]
    [((0 : ℕ), (12 : ℚ)), (1, -3)] [((1 : ℕ), (-3 : ℚ)), (0, 12)]
    [5] 10 50 10 [5, 10] (0, 1, 15) (0, 1, 15, 10)
    (by decide) (by decide) (by decide)

end DCA
